import Mathlib

/-!
Verification development for the Google Play review scraper (crawler.py) and the
chunked review-insight generator (doctor.py).

The Python sources are embedded shallowly:
* strings are Lean `String`s, and per-character work happens on `String.data`
  (`List Char`);
* Python regular-expression classes are modelled on the character repertoire the
  program actually meets: `\d` is the ASCII digits, `\s` is ASCII whitespace
  (space, tab, LF, CR, VT, FF), and `\w` is ASCII alphanumerics, the underscore
  and the Hangul-syllable block U+AC00..U+D7A3;
* fallible operations (HTTP calls, `strptime`) return `Option`/`Except`;
* the LM Studio endpoint is an oracle `Nat → Except String String` giving the
  outcome of the n-th HTTP call of a run.

All recursions are structural (fuel-based where the source loops on shrinking
slices), so every definition evaluates by `decide`/`rfl`.
-/

/-! ### Character classes and low-level string helpers -/

/-- Python `\s` (ASCII repertoire): space, TAB, LF, VT, FF, CR. -/
def isSpacePy (c : Char) : Bool :=
  c == ' ' || c == '\t' || c == '\n' || c == Char.ofNat 11 || c == Char.ofNat 12 || c == '\r'

/-- The Hangul-syllable block `가-힣` named in the normalizer's Korean regex. -/
def isHangul (c : Char) : Bool :=
  0xAC00 ≤ c.toNat && c.toNat ≤ 0xD7A3

/-- Python `\w` on the repertoire this program meets: ASCII alphanumerics,
underscore, and Hangul syllables. -/
def pyWordChar (c : Char) : Bool :=
  c.isAlphanum || c == '_' || isHangul c

/-- The punctuation `.,!?` kept by both normalizer regexes. -/
def basicPunct (c : Char) : Bool :=
  c == '.' || c == ',' || c == '!' || c == '?'

/-- Decimal digit character: `digitChar k` is the character for digit `k < 10`. -/
def digitChar (k : Nat) : Char := Char.ofNat (48 + k)

/-- Value of a decimal digit string, as Python `int` computes it on `\d+` matches. -/
def valDigits (ds : List Char) : Nat :=
  ds.foldl (fun a c => 10 * a + (c.toNat - 48)) 0

/-- Fuel-driven decimal rendering of a natural number (digits of `n`, most
significant first). The fuel only serves structural recursion; `natStrChars`
always supplies enough. -/
def natStrF : Nat → Nat → List Char
  | 0, _ => []
  | fuel + 1, n => if n < 10 then [digitChar n] else natStrF fuel (n / 10) ++ [digitChar (n % 10)]

/-- Decimal digit list of `n`. -/
def natStrChars (n : Nat) : List Char := natStrF (n + 1) n

/-- Decimal rendering of `n` as a string. -/
def natStr (n : Nat) : String := String.mk (natStrChars n)

/-- Python `f"{n:0wd}"` for a natural number: pad the decimal rendering with
leading zeros to width `w`. -/
def padZeros (w : Nat) (n : Nat) : String :=
  String.mk (List.replicate (w - (natStrChars n).length) '0' ++ natStrChars n)

/-- Match a literal character list at the head of the input (case-sensitive),
returning the rest of the input on success. -/
def eatLit : List Char → List Char → Option (List Char)
  | [], cs => Option.some cs
  | _ :: _, [] => Option.none
  | p :: ps, c :: cs => if p == c then eatLit ps cs else Option.none

/-- Test that `lit` occurs literally at the head of `cs`. -/
def leadsWith (lit cs : List Char) : Bool := (eatLit lit cs).isSome

/-- Match a literal character list at the head of the input, ASCII
case-insensitively (as `strptime` matches month names). -/
def eatCI : List Char → List Char → Option (List Char)
  | [], cs => Option.some cs
  | _ :: _, [] => Option.none
  | p :: ps, c :: cs => if p.toLower == c.toLower then eatCI ps cs else Option.none

/-- Substring containment (Python `in` on strings). -/
def containsSub (needle : List Char) : List Char → Bool
  | [] => needle.isEmpty
  | c :: cs => leadsWith needle (c :: cs) || containsSub needle cs

/-- Fuel-driven maximal-run scanner; `runsOf` supplies the fuel. -/
def runsOfF (p : Char → Bool) : Nat → List Char → List (List Char)
  | _, [] => []
  | 0, _ :: _ => []
  | fuel + 1, c :: cs =>
    if p c then (c :: cs.takeWhile p) :: runsOfF p fuel (cs.dropWhile p)
    else runsOfF p fuel cs

/-- The maximal runs of `p`-characters of a list, in order.
`runsOf Char.isDigit` is `re.findall(r'\d+', ·)`; `runsOf (!isSpacePy ·)` is
Python `str.split()`. -/
def runsOf (p : Char → Bool) (cs : List Char) : List (List Char) :=
  runsOfF p cs.length cs

/-- Join word lists with single spaces (`' '.join`). -/
def joinSp : List (List Char) → List Char
  | [] => []
  | [w] => w
  | w :: ws => w ++ ' ' :: joinSp ws

/-- Python `str.strip()`: drop whitespace from both ends. -/
def pyStrip (s : String) : String :=
  String.mk (((s.data.dropWhile isSpacePy).reverse.dropWhile isSpacePy).reverse)

/-! ### crawler.py — rating parsing (extract_reviews, rating section)

`re.search(r'Rated (\d+) stars', aria_label)` and
`re.search(r'(\d+)개를 받았습니다', aria_label)`, followed by `int(match.group(1))`.
The scanners below try every start position left to right; at each position the
`\d+` group is the maximal digit run (a shorter run would leave a digit where
the following literal expects a non-digit, so backtracking cannot help). -/

def ratedLit : List Char := "Rated ".data

def starsLit : List Char := " stars".data

def krRatingLit : List Char := "개를 받았습니다".data

/-- Scan for `re.search(r'Rated (\d+) stars', ·)`, returning `int` of group 1. -/
def searchRated : List Char → Option Nat
  | [] => Option.none
  | c :: cs =>
    match eatLit ratedLit (c :: cs) with
    | Option.some rest =>
      let ds := rest.takeWhile Char.isDigit
      if ds.isEmpty then searchRated cs
      else if leadsWith starsLit (rest.dropWhile Char.isDigit) then Option.some (valDigits ds)
      else searchRated cs
    | Option.none => searchRated cs

/-- Scan for `re.search(r'(\d+)개를 받았습니다', ·)`, returning `int` of group 1. -/
def searchRatedKR : List Char → Option Nat
  | [] => Option.none
  | c :: cs =>
    if c.isDigit then
      if leadsWith krRatingLit (cs.dropWhile Char.isDigit) then
        Option.some (valDigits (c :: cs.takeWhile Char.isDigit))
      else searchRatedKR cs
    else searchRatedKR cs

/-- Rating extraction from the accessibility label (crawler.py lines 154-160):
`int(match.group(1))` when the locale's pattern matches, `None` otherwise. -/
def parseRating (is_kr : Bool) (ariaLabel : String) : Option Nat :=
  if is_kr then searchRatedKR ariaLabel.data else searchRated ariaLabel.data

/-! ### crawler.py — date normalization (extract_reviews, date section) -/

/-- Korean branch (crawler.py lines 165-170): take the digit runs
(`re.findall(r'\d+', date)`); with at least three, format the first three as
`f"{int(y):04d}-{int(m):02d}-{int(d):02d}"`; otherwise leave the string as is. -/
def krDate (s : String) : String :=
  match runsOf Char.isDigit s.data with
  | y :: m :: d :: _ =>
    padZeros 4 (valDigits y) ++ "-" ++ padZeros 2 (valDigits m) ++ "-" ++ padZeros 2 (valDigits d)
  | _ => s

/-- Gregorian leap-year rule used by `datetime`. -/
def isLeapYear (y : Nat) : Bool := (y % 4 == 0 && y % 100 != 0) || y % 400 == 0

/-- Days in a month as `datetime` validates them. -/
def daysInMonth (y m : Nat) : Nat :=
  if m == 2 then (if isLeapYear y then 29 else 28)
  else if m == 4 || m == 6 || m == 9 || m == 11 then 30
  else 31

/-- Full English month names, in the order `strptime`'s `%B` alternation tries
them; index 1..12. -/
def monthName : Nat → String
  | 1 => "January"
  | 2 => "February"
  | 3 => "March"
  | 4 => "April"
  | 5 => "May"
  | 6 => "June"
  | 7 => "July"
  | 8 => "August"
  | 9 => "September"
  | 10 => "October"
  | 11 => "November"
  | 12 => "December"
  | _ => ""

def monthIdxs : List Nat := [1, 2, 3, 4, 5, 6, 7, 8, 9, 10, 11, 12]

/-- Match `%B`: the first month name matching case-insensitively at the head. -/
def tryMonths : List Nat → List Char → Option (Nat × List Char)
  | [], _ => Option.none
  | i :: is, cs =>
    match eatCI (monthName i).data cs with
    | Option.some rest => Option.some (i, rest)
    | Option.none => tryMonths is cs

/-- The tail of `strptime(date, "%B %d, %Y")` after the month name:
`\s+`, a 1-2 digit day, `","`, `\s+`, an exactly-four-digit year (CPython
compiles `%Y` to four digit atoms), end of string (leftover input raises); then
the `datetime` range checks, then `strftime("%Y-%m-%d")`. The month and day are
zero-padded; the year is rendered without padding, as the platform C library's
`%Y` emits it (a parsed year below 1000, e.g. from `"0023"`, comes out short).
The digit groups are maximal runs: a longer run cannot match because the
character after each group is a non-digit. -/
def enDateRest (m : Nat) (r1 : List Char) : Option String :=
  let sp1 := r1.takeWhile isSpacePy
  let r2 := r1.dropWhile isSpacePy
  let ds := r2.takeWhile Char.isDigit
  let r3 := r2.dropWhile Char.isDigit
  if sp1.isEmpty then Option.none
  else if ds.length == 0 || 2 < ds.length then Option.none
  else
    match r3 with
    | ',' :: r4 =>
      let sp2 := r4.takeWhile isSpacePy
      let r5 := r4.dropWhile isSpacePy
      let ys := r5.takeWhile Char.isDigit
      let r6 := r5.dropWhile Char.isDigit
      if sp2.isEmpty then Option.none
      else if !(ys.length == 4) then Option.none
      else if !r6.isEmpty then Option.none
      else
        let d := valDigits ds
        let y := valDigits ys
        if y == 0 then Option.none
        else if d == 0 || daysInMonth y m < d then Option.none
        else Option.some (natStr y ++ "-" ++ padZeros 2 m ++ "-" ++ padZeros 2 d)
    | _ => Option.none

/-- English branch (crawler.py line 173):
`datetime.strptime(date, "%B %d, %Y").strftime("%Y-%m-%d")`, `None` when
`strptime` raises (the record is then dropped by the per-review handler). -/
def enDate (s : String) : Option String :=
  match tryMonths monthIdxs s.data with
  | Option.some (m, r1) => enDateRest m r1
  | Option.none => Option.none

/-! ### crawler.py — per-review extraction and persistence -/

/-- The fields of one review DOM element after the element lookups succeed:
review text, the rating div's `aria-label`, and the date text. -/
structure RawReview where
  text : String
  ariaLabel : String
  dateText : String
deriving DecidableEq, Repr

/-- One persisted record: the dict appended at crawler.py lines 175-179. -/
structure Review where
  review : String
  rating : Option Nat
  date : String
deriving DecidableEq, Repr

/-- Processing of one review element (crawler.py lines 146-182): strip the
texts, parse the rating, normalize the date; any exception (here: `strptime`
failing in the English branch) drops the record. -/
def processReview (is_kr : Bool) (r : RawReview) : Option Review :=
  let rating := parseRating is_kr r.ariaLabel
  let d0 := pyStrip r.dateText
  if is_kr then Option.some ⟨pyStrip r.text, rating, krDate d0⟩
  else
    match enDate d0 with
    | Option.some d => Option.some ⟨pyStrip r.text, rating, d⟩
    | Option.none => Option.none

/-- Model of `sorted(extracted, key=lambda x: x['date'])`: Python's stable sort by the
date string, modelled by insertion sort (extensionally the unique stable sort
for a total key order). -/
def sortByDate (l : List Review) : List Review :=
  List.insertionSort (fun a b => a.date ≤ b.date) l

/-- The record sequence written to the CSV (crawler.py lines 144-190): parse
each element, drop failures, sort stably by date. -/
def extract_reviews (is_kr : Bool) (raws : List RawReview) : List Review :=
  sortByDate (raws.filterMap (processReview is_kr))

/-- The date field has the shape `YYYY-MM-DD`. -/
def isISODate (s : String) : Bool :=
  match s.data with
  | [y1, y2, y3, y4, h1, m1, m2, h2, d1, d2] =>
    y1.isDigit && y2.isDigit && y3.isDigit && y4.isDigit && h1 == '-' &&
      m1.isDigit && m2.isDigit && h2 == '-' && d1.isDigit && d2.isDigit
  | _ => false

/-! ### doctor.py — text normalization (normalize_text) -/

/-- Complement of the Korean deletion class `[^가-힣\w\s.,!?]`. -/
def allowedKR (c : Char) : Bool :=
  isHangul c || pyWordChar c || isSpacePy c || basicPunct c

/-- Complement of the English deletion class `[^a-zA-Z0-9\w\s.,!?]`. -/
def allowedEN (c : Char) : Bool :=
  (c.isAlpha || c.isDigit) || pyWordChar c || isSpacePy c || basicPunct c

/-- doctor.py lines 117-131. A missing value (a `float` NaN from the
dataframe) becomes `""`; otherwise delete the characters outside the locale's
class, then `' '.join(text.split())`. The `language` attribute is `'EN'`
process-wide (doctor.py line 47). -/
def normalize_text (language : String) (text : Option String) : String :=
  match text with
  | Option.none => ""
  | Option.some t =>
    let kept := t.data.filter (fun c => if language == "KR" then allowedKR c else allowedEN c)
    String.mk (joinSp (runsOf (fun c => !isSpacePy c) kept))

/-! ### doctor.py — chunking and prompt construction (generate_insights) -/

/-- Fuel-driven slicing; `chunkSlices` supplies the fuel. -/
def chunkF (k : Nat) : Nat → List α → List (List α)
  | _, [] => []
  | 0, _ :: _ => []
  | fuel + 1, x :: xs => (x :: xs).take k :: chunkF k fuel ((x :: xs).drop k)

/-- `for i in range(0, len(xs), k): xs[i:i+k]` (doctor.py lines 72-73). -/
def chunkSlices (k : Nat) (xs : List α) : List (List α) :=
  chunkF k xs.length xs

/-- Rendering (`repr`) of a Python string as it appears inside `f"... {a_list}"`, for
strings without quotes, backslashes or control characters (normalized review
text never contains any): single quotes, or double quotes when the text holds a
single quote and no double quote. -/
def pyStrRepr (s : String) : String :=
  if s.data.contains '\'' && !(s.data.contains '"') then "\"" ++ s ++ "\""
  else "'" ++ s ++ "'"

/-- Rendering (`repr`) of a Python list of strings, as an f-string interpolates it. -/
def pyListRepr (xs : List String) : String :=
  "[" ++ String.intercalate ", " (xs.map pyStrRepr) ++ "]"

/-- The per-chunk prompt (doctor.py lines 74-75):
`f"{self.prompt_input.text()} Reviews: {normalized_chunk}"` with every review
normalized under the process-wide `'EN'` language. -/
def chunkPrompt (userPrompt : String) (chunk : List (Option String)) : String :=
  userPrompt ++ " Reviews: " ++ pyListRepr (chunk.map (normalize_text "EN"))

/-- The final aggregation prompt (doctor.py lines 86-87), chunk reports
interpolated verbatim. -/
def finalPrompt (reports : List String) : String :=
  "Combine the following UI/UX reports from Google Play Store review analysis into a single, concise list of actionable insights.  Prioritize the most important issues (maximum 5). Remove redundant information. I do NOT want code or rambling in the response.\n        Reports: " ++ pyListRepr reports

/-- The chunk loop (doctor.py lines 72-83). `respond n` is the outcome of the
run's n-th LM Studio call; `k` is the index of the next call. Returns the
prompts actually sent and either the collected chunk reports or the first
error, at which the loop stops. -/
def processChunks (respond : Nat → Except String String) (userPrompt : String) :
    List (List (Option String)) → Nat → List String × Except String (List String)
  | [], _ => ([], Except.ok [])
  | c :: cs, k =>
    let p := chunkPrompt userPrompt c
    match respond k with
    | Except.error e => ([p], Except.error e)
    | Except.ok r =>
      match processChunks respond userPrompt cs (k + 1) with
      | (ps, Except.ok rs) => (p :: ps, Except.ok (r :: rs))
      | (ps, Except.error e) => (p :: ps, Except.error e)

/-- Observable outcome of one `generate_insights` run: the prompts sent to the
model, in order, and the text finally shown in the output area. -/
structure GenOutcome where
  calls : List String
  shown : String
deriving DecidableEq, Repr

/-- doctor.py lines 61-93, for an input frame whose `review` column holds
`reviews` (a missing cell is `Option.none`): chunk, call the model per chunk
(aborting and surfacing the first error), then issue the single aggregation
call and show its response, or its error. -/
def generate_insights (respond : Nat → Except String String) (userPrompt : String)
    (reviews : List (Option String)) : GenOutcome :=
  let chunks := chunkSlices 20 reviews
  match processChunks respond userPrompt chunks 0 with
  | (ps, Except.error e) => ⟨ps, "Error calling LM Studio API: " ++ e⟩
  | (ps, Except.ok reports) =>
    let fp := finalPrompt reports
    match respond ps.length with
    | Except.error e => ⟨ps ++ [fp], "Error generating final report: " ++ e⟩
    | Except.ok r => ⟨ps ++ [fp], "Final Report:\n" ++ r⟩

/-! ### doctor.py — the LM Studio HTTP call (call_lmstudio) -/

/-- JSON-ish values as Python sees them after `response.json()`. -/
inductive PyVal where
  | pstr : String → PyVal
  | pint : Int → PyVal
  | plist : List PyVal → PyVal
  | pdict : List (String × PyVal) → PyVal

/-- An HTTP response from the completions endpoint: status code and the parsed
JSON body (`Option.none` when the body is not valid JSON, so `response.json()`
raises inside the `RequestException` family). -/
structure HttpResponse where
  status : Nat
  jsonBody : Option PyVal

/-- Python `key in data` (TypeError on an int). -/
def pyIn (key : String) : PyVal → Except String Bool
  | PyVal.pdict kvs => Except.ok (kvs.any (fun kv => kv.1 == key))
  | PyVal.plist xs =>
    Except.ok (xs.any (fun v => match v with | PyVal.pstr s => s == key | _ => false))
  | PyVal.pstr s => Except.ok (containsSub key.data s.data)
  | PyVal.pint _ => Except.error "TypeError: argument of type 'int' is not iterable"

/-- Python `len(v)` (TypeError on an int). -/
def pyLen : PyVal → Except String Nat
  | PyVal.pstr s => Except.ok s.length
  | PyVal.plist xs => Except.ok xs.length
  | PyVal.pdict kvs => Except.ok kvs.length
  | PyVal.pint _ => Except.error "TypeError: object of type 'int' has no len()"

/-- Python `data[key]` with a string key. -/
def pyGetStr (data : PyVal) (key : String) : Except String PyVal :=
  match data with
  | PyVal.pdict kvs =>
    match kvs.find? (fun kv => kv.1 == key) with
    | Option.some kv => Except.ok kv.2
    | Option.none => Except.error ("KeyError: " ++ key)
  | PyVal.plist _ => Except.error "TypeError: list indices must be integers or slices, not str"
  | PyVal.pstr _ => Except.error "TypeError: string indices must be integers"
  | PyVal.pint _ => Except.error "TypeError: 'int' object is not subscriptable"

/-- Python `data[i]` with a nonnegative int key. -/
def pyGetIdx (data : PyVal) (i : Nat) : Except String PyVal :=
  match data with
  | PyVal.plist xs =>
    match xs[i]? with
    | Option.some v => Except.ok v
    | Option.none => Except.error "IndexError: list index out of range"
  | PyVal.pstr s =>
    match s.data[i]? with
    | Option.some c => Except.ok (PyVal.pstr (String.mk [c]))
    | Option.none => Except.error "IndexError: string index out of range"
  | PyVal.pdict _ => Except.error ("KeyError: " ++ natStr i)
  | PyVal.pint _ => Except.error "TypeError: 'int' object is not subscriptable"

/-- doctor.py lines 95-115. `raise_for_status` raises (a `RequestException`,
re-raised with the `LM Studio API request failed:` prefix) exactly for 4xx/5xx;
an unparseable body raises in the same family; then
`if 'choices' in data and len(data['choices']) > 0: return
data['choices'][0]['text'] else: return "No content returned from model."`,
whose subscript errors propagate as ordinary exceptions. -/
def call_lmstudio (resp : HttpResponse) : Except String PyVal :=
  if 400 ≤ resp.status && resp.status < 600 then
    Except.error ("LM Studio API request failed: HTTP error " ++ natStr resp.status)
  else
    match resp.jsonBody with
    | Option.none => Except.error "LM Studio API request failed: response body is not valid JSON"
    | Option.some data =>
      match pyIn "choices" data with
      | Except.error e => Except.error e
      | Except.ok false => Except.ok (PyVal.pstr "No content returned from model.")
      | Except.ok true =>
        match pyGetStr data "choices" with
        | Except.error e => Except.error e
        | Except.ok choices =>
          match pyLen choices with
          | Except.error e => Except.error e
          | Except.ok n =>
            if 0 < n then
              match pyGetIdx choices 0 with
              | Except.error e => Except.error e
              | Except.ok c0 =>
                match pyGetStr c0 "text" with
                | Except.error e => Except.error e
                | Except.ok v => Except.ok v
            else Except.ok (PyVal.pstr "No content returned from model.")

/-! ### Definitions following the spec's words (for refinement comparisons) -/

/-- Modelled from the spec: the allowed set claimed for the English locale —
"letters, digits and basic punctuation" (whitespace retained for the collapsing
step). Compare with `allowedEN`, which also keeps `\w` word characters. -/
def claimAllowedEN (c : Char) : Bool :=
  c.isAlpha || c.isDigit || basicPunct c || isSpacePy c

/-- Modelled from the spec: the claimed English-locale normalizer — remove
characters outside `claimAllowedEN`, collapse whitespace runs. -/
def claimNormalizeEN (text : Option String) : String :=
  match text with
  | Option.none => ""
  | Option.some t =>
    String.mk (joinSp (runsOf (fun c => !isSpacePy c) (t.data.filter claimAllowedEN)))

/-- The allowed set the code actually keeps (amended claim): letters, digits,
underscore, Hangul syllables, `.,!?` and whitespace — in both locale branches. -/
def amendedAllowed (c : Char) : Bool :=
  c.isAlpha || c.isDigit || c == '_' || isHangul c || basicPunct c || isSpacePy c

/-- Word splitting written independently of `runsOf`: a right fold building the
current word, then discarding empty words. -/
def wordStep (c : Char) (acc : List (List Char)) : List (List Char) :=
  if isSpacePy c then [] :: acc
  else
    match acc with
    | [] => [[c]]
    | w :: ws => (c :: w) :: ws

/-- The words of a character list (spec-side formulation of `str.split()`). -/
def wordsRec (cs : List Char) : List (List Char) :=
  (cs.foldr wordStep []).filter (fun w => !w.isEmpty)

/-- The amended normalizer claim, written from the spec side with the corrected
allowed set and the independent word splitter. -/
def specNormalizeFixed (text : Option String) : String :=
  match text with
  | Option.none => ""
  | Option.some t =>
    String.mk (joinSp (wordsRec (t.data.filter amendedAllowed)))


/-- Decidable equality of call outcomes, for concrete evaluation. -/
instance {ε α : Type} [DecidableEq ε] [DecidableEq α] : DecidableEq (Except ε α) := fun a b =>
  match a, b with
  | Except.error e₁, Except.error e₂ =>
    if h : e₁ = e₂ then Decidable.isTrue (by rw [h]) else Decidable.isFalse (by simp [h])
  | Except.ok x, Except.ok y =>
    if h : x = y then Decidable.isTrue (by rw [h]) else Decidable.isFalse (by simp [h])
  | Except.error _, Except.ok _ => Decidable.isFalse (by simp)
  | Except.ok _, Except.error _ => Decidable.isFalse (by simp)

instance : IsTotal Review (fun a b : Review => a.date ≤ b.date) :=
  ⟨fun a b => le_total a.date b.date⟩

instance : IsTrans Review (fun a b : Review => a.date ≤ b.date) :=
  ⟨fun _ _ _ h h₂ => le_trans h h₂⟩

/-! ## Lemmas and theorems -/

/-! ### Generic helpers: fuel congruence and run-scanner equations -/

theorem dropWhile_length_le (p : Char → Bool) :
    ∀ l : List Char, (l.dropWhile p).length ≤ l.length := by
  intro l
  induction l with
  | nil => simp
  | cons c cs ih =>
    rw [List.dropWhile_cons]
    split
    · exact Nat.le_trans ih (Nat.le_succ _)
    · exact Nat.le_refl _

theorem runsOfF_congr (p : Char → Bool) :
    ∀ f₁ : Nat, ∀ cs : List Char, cs.length ≤ f₁ → ∀ f₂ : Nat, cs.length ≤ f₂ →
      runsOfF p f₁ cs = runsOfF p f₂ cs := by
  intro f₁
  induction f₁ with
  | zero =>
    intro cs hcs f₂ _
    have : cs = [] := List.length_eq_zero.mp (Nat.le_zero.mp hcs)
    subst this
    cases f₂ <;> rfl
  | succ f₁ ih =>
    intro cs hcs f₂ hcs₂
    cases cs with
    | nil => cases f₂ <;> rfl
    | cons c cs' =>
      cases f₂ with
      | zero => exact absurd hcs₂ (by simp)
      | succ f₂' =>
        simp only [runsOfF]
        have h₁ : cs'.length ≤ f₁ := Nat.le_of_succ_le_succ hcs
        have h₂ : cs'.length ≤ f₂' := Nat.le_of_succ_le_succ hcs₂
        split
        · exact congrArg _ (ih _ (Nat.le_trans (dropWhile_length_le p cs') h₁) _
            (Nat.le_trans (dropWhile_length_le p cs') h₂))
        · exact ih _ h₁ _ h₂

theorem runsOf_nil (p : Char → Bool) : runsOf p [] = [] := rfl

theorem runsOf_cons_pos {p : Char → Bool} {c : Char} (cs : List Char) (h : p c = true) :
    runsOf p (c :: cs) = (c :: cs.takeWhile p) :: runsOf p (cs.dropWhile p) := by
  show runsOfF p (cs.length + 1) (c :: cs) = _
  simp only [runsOfF, h, if_pos]
  exact congrArg _ (runsOfF_congr p cs.length _ (dropWhile_length_le p cs) _ (Nat.le_refl _))

theorem runsOf_cons_neg {p : Char → Bool} {c : Char} (cs : List Char) (h : p c = false) :
    runsOf p (c :: cs) = runsOf p cs := by
  show runsOfF p (cs.length + 1) (c :: cs) = _
  simp only [runsOfF, h]
  exact runsOfF_congr p cs.length _ (Nat.le_refl _) _ (Nat.le_refl _)

theorem runsOf_append_run {p : Char → Bool} {ds rest : List Char} (hne : ds ≠ [])
    (hall : ∀ c ∈ ds, p c = true)
    (hrest : ∀ c' cs', rest = c' :: cs' → p c' = false) :
    runsOf p (ds ++ rest) = ds :: runsOf p rest := by
  cases ds with
  | nil => exact absurd rfl hne
  | cons c ds' =>
    have hc : p c = true := hall c (by simp)
    have hds' : ∀ x ∈ ds', p x = true := fun x hx => hall x (by simp [hx])
    have htake : rest.takeWhile p = [] := by
      cases h : rest with
      | nil => simp
      | cons c' cs' => simp [List.takeWhile_cons, hrest c' cs' h]
    have hdrop : rest.dropWhile p = rest := by
      cases h : rest with
      | nil => simp
      | cons c' cs' => simp [List.dropWhile_cons, hrest c' cs' h]
    rw [List.cons_append, runsOf_cons_pos _ hc,
      List.takeWhile_append_of_pos hds', List.dropWhile_append_of_pos hds', htake, hdrop,
      List.append_nil]

theorem runsOf_props_bounded (p : Char → Bool) :
    ∀ n : Nat, ∀ cs : List Char, cs.length ≤ n →
      ∀ w ∈ runsOf p cs, w ≠ [] ∧ ∀ c ∈ w, p c = true ∧ c ∈ cs := by
  intro n
  induction n with
  | zero =>
    intro cs hcs w hw
    have : cs = [] := List.length_eq_zero.mp (Nat.le_zero.mp hcs)
    subst this
    simp [runsOf_nil] at hw
  | succ n ih =>
    intro cs hcs w hw
    cases cs with
    | nil => simp [runsOf_nil] at hw
    | cons c cs' =>
      cases hc : p c with
      | true =>
        rw [runsOf_cons_pos _ hc] at hw
        rcases List.mem_cons.mp hw with h | h
        · subst h
          refine ⟨by simp, ?_⟩
          intro x hx
          rcases List.mem_cons.mp hx with h | h
          · subst h; exact ⟨hc, by simp⟩
          · exact ⟨List.mem_takeWhile_imp h, by
              simp [List.mem_cons, (List.takeWhile_sublist p).mem h]⟩
        · have hlen : (cs'.dropWhile p).length ≤ n :=
            Nat.le_trans (dropWhile_length_le p cs') (Nat.le_of_succ_le_succ hcs)
          have := ih (cs'.dropWhile p) hlen w h
          refine ⟨this.1, fun x hx => ⟨(this.2 x hx).1, ?_⟩⟩
          have : x ∈ cs' := (List.dropWhile_sublist p).mem (this.2 x hx).2
          simp [List.mem_cons, this]
      | false =>
        rw [runsOf_cons_neg _ hc] at hw
        have := ih cs' (Nat.le_of_succ_le_succ hcs) w hw
        exact ⟨this.1, fun x hx => ⟨(this.2 x hx).1, by simp [List.mem_cons, (this.2 x hx).2]⟩⟩

theorem runsOf_props (p : Char → Bool) (cs : List Char) :
    ∀ w ∈ runsOf p cs, w ≠ [] ∧ ∀ c ∈ w, p c = true ∧ c ∈ cs :=
  runsOf_props_bounded p cs.length cs (Nat.le_refl _)

/-! ### Normalizer lemmas -/

theorem joinSp_cons₂ (w v : List Char) (ws : List (List Char)) :
    joinSp (w :: v :: ws) = w ++ ' ' :: joinSp (v :: ws) := rfl

theorem filter_joinSp (q : Char → Bool) (hsp : q ' ' = true) :
    ∀ ws : List (List Char), (∀ w ∈ ws, ∀ c ∈ w, q c = true) →
      (joinSp ws).filter q = joinSp ws := by
  intro ws
  induction ws with
  | nil => intro _; rfl
  | cons w ws ih =>
    intro h
    cases ws with
    | nil =>
      show w.filter q = w
      exact List.filter_eq_self.mpr (h w (by simp))
    | cons v ws' =>
      rw [joinSp_cons₂, List.filter_append]
      rw [List.filter_eq_self.mpr (h w (by simp)), List.filter_cons, hsp]
      simp only [if_pos]
      rw [ih (fun u hu => h u (by simp [List.mem_cons.mp hu]))]

theorem runsOf_joinSp (p : Char → Bool) (hsp : p ' ' = false) :
    ∀ ws : List (List Char), (∀ w ∈ ws, w ≠ [] ∧ ∀ c ∈ w, p c = true) →
      runsOf p (joinSp ws) = ws := by
  intro ws
  induction ws with
  | nil => intro _; rfl
  | cons w ws ih =>
    intro h
    cases ws with
    | nil =>
      show runsOf p w = [w]
      have := h w (by simp)
      calc runsOf p w = runsOf p (w ++ []) := by rw [List.append_nil]
        _ = w :: runsOf p [] := runsOf_append_run this.1 this.2 (by intro c' cs' h'; cases h')
        _ = [w] := by rw [runsOf_nil]
    | cons v ws' =>
      rw [joinSp_cons₂]
      have hw := h w (by simp)
      rw [runsOf_append_run hw.1 hw.2 (by intro c' cs' h'; cases h'; exact hsp)]
      rw [runsOf_cons_neg _ hsp]
      rw [ih (fun u hu => h u (by simp [List.mem_cons.mp hu]))]

/-- The character class actually kept by `normalize_text` for each `language`. -/
theorem normalize_allowed_space (language : String) :
    (if language == "KR" then allowedKR ' ' else allowedEN ' ') = true := by
  cases h : language == "KR" <;> simp [h] <;> decide

/-- C6 core: idempotence of the normalizer on present values. -/
theorem normalize_some_idem (language : String) (t : String) :
    normalize_text language (Option.some (normalize_text language (Option.some t))) =
      normalize_text language (Option.some t) := by
  show String.mk (joinSp (runsOf _ (List.filter _ (String.mk _).data))) = _
  have hdata : (String.mk (joinSp (runsOf (fun c => !isSpacePy c)
      (t.data.filter (fun c => if language == "KR" then allowedKR c else allowedEN c))))).data =
      joinSp (runsOf (fun c => !isSpacePy c)
      (t.data.filter (fun c => if language == "KR" then allowedKR c else allowedEN c))) := rfl
  rw [hdata]
  have hprops := runsOf_props (fun c => !isSpacePy c)
    (t.data.filter (fun c => if language == "KR" then allowedKR c else allowedEN c))
  rw [filter_joinSp _ (normalize_allowed_space language) _ ?hall]
  case hall =>
    intro w hw c hc
    exact (List.mem_filter.mp ((hprops w hw).2 c hc).2).2
  rw [runsOf_joinSp _ (by decide) _ ?hruns]
  case hruns =>
    intro w hw
    exact ⟨(hprops w hw).1, fun c hc => ((hprops w hw).2 c hc).1⟩
  rfl

/-- C6: the text normalizer is idempotent, and a missing value normalizes to
the empty string (doctor.py `normalize_text`, lines 117-131), in either
language mode. -/
theorem normalize_text_idempotent :
    ∀ (language : String) (text : Option String),
      normalize_text language (Option.some (normalize_text language text)) =
        normalize_text language text
    ∧ normalize_text language Option.none = "" := by
  intro language text
  refine ⟨?_, rfl⟩
  cases text with
  | none => rfl
  | some t => exact normalize_some_idem language t

theorem foldr_wordStep_spec :
    ∀ cs : List Char,
      (cs.foldr wordStep [] = [] → cs = []) ∧
      (∀ w ws, cs.foldr wordStep [] = w :: ws →
        w = cs.takeWhile (fun c => !isSpacePy c) ∧
        ws.filter (fun v => !v.isEmpty) =
          runsOf (fun c => !isSpacePy c) (cs.dropWhile (fun c => !isSpacePy c))) := by
  intro cs
  induction cs with
  | nil => exact ⟨fun _ => rfl, by intro w ws h; cases h⟩
  | cons c cs ih =>
    have corr : (cs.foldr wordStep []).filter (fun v => !v.isEmpty) =
        runsOf (fun c => !isSpacePy c) cs := by
      rcases hf : cs.foldr wordStep [] with _ | ⟨w', ws'⟩
      · rw [ih.1 hf]; rfl
      · have hspec := ih.2 w' ws' hf
        rcases hw' : w' with _ | ⟨c₀, w''⟩
        · subst hw'
          have htk : cs.takeWhile (fun c => !isSpacePy c) = [] := hspec.1.symm
          have hdw : cs.dropWhile (fun c => !isSpacePy c) = cs := by
            cases cs with
            | nil => rfl
            | cons c₁ cs₁ =>
              rw [List.takeWhile_cons] at htk
              by_cases h₁ : (!isSpacePy c₁) = true
              · simp [h₁] at htk
              · rw [List.dropWhile_cons, if_neg h₁]
          rw [List.filter_cons]
          simpa [hdw] using hspec.2
        · subst hw'
          have htk := hspec.1.symm
          cases cs with
          | nil => simp at htk
          | cons c₁ cs₁ =>
            rw [List.takeWhile_cons] at htk
            by_cases h₁ : (!isSpacePy c₁) = true
            · rw [if_pos h₁] at htk
              have hc₁ : c₁ = c₀ := (List.cons.injEq _ _ _ _ ▸ htk).1
              have htk₁ : cs₁.takeWhile (fun c => !isSpacePy c) = w'' :=
                (List.cons.injEq _ _ _ _ ▸ htk).2
              have hdw : (c₁ :: cs₁).dropWhile (fun c => !isSpacePy c) =
                  cs₁.dropWhile (fun c => !isSpacePy c) := by
                rw [List.dropWhile_cons, if_pos h₁]
              rw [List.filter_cons]
              have hne : (!(c₀ :: w'').isEmpty) = true := by simp
              rw [if_pos hne]
              rw [runsOf_cons_pos _ (hc₁ ▸ h₁), htk₁, hc₁]
              rw [hdw] at hspec
              exact congrArg _ hspec.2
            · rw [if_neg h₁] at htk
              cases htk
    constructor
    · intro h
      by_cases hc : isSpacePy c = true
      · simp only [List.foldr, wordStep, hc, if_pos] at h
        cases h
      · simp only [List.foldr, wordStep, hc, if_neg, Bool.false_eq_true] at h
        rcases hf : cs.foldr wordStep [] with _ | ⟨w', ws'⟩ <;> rw [hf] at h <;> cases h
    · intro w ws h
      by_cases hc : isSpacePy c = true
      · simp only [List.foldr, wordStep, hc, if_pos] at h
        have hns : (!isSpacePy c) = false := by simp [hc]
        rcases h with ⟨rfl, rfl⟩
        refine ⟨by rw [List.takeWhile_cons, hns]; rfl, ?_⟩
        rw [List.dropWhile_cons, if_neg (by simp [hc]), runsOf_cons_neg _ hns]
        rcases hf : cs.foldr wordStep [] with _ | ⟨w', ws'⟩
        · rw [ih.1 hf]; rfl
        · rw [← hf]; exact corr
      · have hns : (!isSpacePy c) = true := by simp [hc]
        simp only [List.foldr, wordStep, hc, if_neg, Bool.false_eq_true] at h
        rcases hf : cs.foldr wordStep [] with _ | ⟨w', ws'⟩ <;> rw [hf] at h
        · rcases h with ⟨rfl, rfl⟩
          have hcs : cs = [] := ih.1 hf
          subst hcs
          exact ⟨by rw [List.takeWhile_cons, if_pos hns]; rfl, by
            rw [List.dropWhile_cons, if_pos hns]; rfl⟩
        · rcases h with ⟨rfl, rfl⟩
          have hspec := ih.2 _ _ hf
          refine ⟨by rw [List.takeWhile_cons, if_pos hns, hspec.1], ?_⟩
          rw [List.dropWhile_cons, if_pos hns]
          exact hspec.2

theorem wordsRec_eq_runsOf (cs : List Char) :
    wordsRec cs = runsOf (fun c => !isSpacePy c) cs := by
  have hspec := foldr_wordStep_spec cs
  show (cs.foldr wordStep []).filter (fun v => !v.isEmpty) = _
  rcases hf : cs.foldr wordStep [] with _ | ⟨w', ws'⟩
  · rw [hspec.1 hf]; rfl
  · have h2 := hspec.2 w' ws' hf
    rcases hw' : w' with _ | ⟨c₀, w''⟩
    · subst hw'
      have htk : cs.takeWhile (fun c => !isSpacePy c) = [] := h2.1.symm
      have hdw : cs.dropWhile (fun c => !isSpacePy c) = cs := by
        cases cs with
        | nil => rfl
        | cons c₁ cs₁ =>
          rw [List.takeWhile_cons] at htk
          by_cases h₁ : (!isSpacePy c₁) = true
          · simp [h₁] at htk
          · rw [List.dropWhile_cons, if_neg h₁]
      rw [List.filter_cons]
      simpa [hdw] using h2.2
    · subst hw'
      have htk := h2.1.symm
      cases cs with
      | nil => simp at htk
      | cons c₁ cs₁ =>
        rw [List.takeWhile_cons] at htk
        by_cases h₁ : (!isSpacePy c₁) = true
        · rw [if_pos h₁] at htk
          have hc₁ : c₁ = c₀ := (List.cons.injEq _ _ _ _ ▸ htk).1
          have htk₁ : cs₁.takeWhile (fun c => !isSpacePy c) = w'' :=
            (List.cons.injEq _ _ _ _ ▸ htk).2
          rw [List.filter_cons, if_pos (by simp)]
          rw [runsOf_cons_pos _ (hc₁ ▸ h₁), htk₁, hc₁]
          refine congrArg _ ?_
          have := h2.2
          rw [List.dropWhile_cons, if_pos h₁] at this
          exact this
        · rw [if_neg h₁] at htk
          cases htk

theorem allowedEN_eq_amended (c : Char) : allowedEN c = amendedAllowed c := by
  simp only [allowedEN, amendedAllowed, pyWordChar, Char.isAlphanum]
  cases hA : c.isAlpha <;> cases hD : c.isDigit <;> cases hU : c == '_' <;>
    cases hH : isHangul c <;> cases hP : basicPunct c <;> cases hS : isSpacePy c <;> rfl

theorem allowedKR_eq_amended (c : Char) : allowedKR c = amendedAllowed c := by
  simp only [allowedKR, amendedAllowed, pyWordChar, Char.isAlphanum]
  cases hA : c.isAlpha <;> cases hD : c.isDigit <;> cases hU : c == '_' <;>
    cases hH : isHangul c <;> cases hP : basicPunct c <;> cases hS : isSpacePy c <;> rfl

/-- C4 corrected, counterexample: on `"a_b"` the claimed English allowed set
(letters, digits, basic punctuation) would delete the underscore and produce
`"ab"`, but `normalize_text` keeps it (`\w` matches `_`) and returns `"a_b"`. -/
theorem normalize_allowed_set_cex :
    normalize_text "EN" (Option.some "a_b") = "a_b" ∧
    claimNormalizeEN (Option.some "a_b") = "ab" ∧
    ("a_b" : String) ≠ "ab" := by
  exact ⟨rfl, rfl, by decide⟩

/-- C4 amended: the normalizer maps a missing value to `""` and otherwise
deletes exactly the characters outside letters/digits/underscore/Hangul
(Python `\w`), `.,!?` and whitespace — the same set in both locale branches —
and then splits on whitespace runs and re-joins the words with single spaces
(which also strips leading and trailing whitespace). `specNormalizeFixed`
states that contract with an independent word splitter. -/
theorem normalize_text_amended :
    ∀ (language : String) (text : Option String),
      normalize_text language text = specNormalizeFixed text := by
  intro language text
  cases text with
  | none => rfl
  | some t =>
    show String.mk (joinSp (runsOf _ _)) = String.mk (joinSp (wordsRec _))
    rw [wordsRec_eq_runsOf]
    have hfilter : t.data.filter
        (fun c => if language == "KR" then allowedKR c else allowedEN c) =
        t.data.filter amendedAllowed := by
      refine List.filter_congr ?_
      intro c _
      cases h : language == "KR" <;>
        simp [h, allowedEN_eq_amended, allowedKR_eq_amended]
    rw [hfilter]

/-! ### Chunking lemmas -/

theorem chunkF_congr {α : Type} (k : Nat) (hk : 0 < k) :
    ∀ f₁ : Nat, ∀ xs : List α, xs.length ≤ f₁ → ∀ f₂ : Nat, xs.length ≤ f₂ →
      chunkF k f₁ xs = chunkF k f₂ xs := by
  intro f₁
  induction f₁ with
  | zero =>
    intro xs hxs f₂ _
    have : xs = [] := List.length_eq_zero.mp (Nat.le_zero.mp hxs)
    subst this
    cases f₂ <;> rfl
  | succ f₁ ih =>
    intro xs hxs f₂ hxs₂
    cases xs with
    | nil => cases f₂ <;> rfl
    | cons x xs' =>
      cases f₂ with
      | zero => exact absurd hxs₂ (by simp)
      | succ f₂' =>
        simp only [chunkF]
        have hd₁ : ((x :: xs').drop k).length ≤ f₁ := by
          simp only [List.length_drop, List.length_cons]
          simp only [List.length_cons] at hxs
          omega
        have hd₂ : ((x :: xs').drop k).length ≤ f₂' := by
          simp only [List.length_drop, List.length_cons]
          simp only [List.length_cons] at hxs₂
          omega
        exact congrArg _ (ih _ hd₁ _ hd₂)

theorem chunkSlices_nil {α : Type} (k : Nat) : chunkSlices k ([] : List α) = [] := rfl

theorem chunkSlices_cons {α : Type} (k : Nat) (hk : 0 < k) (x : α) (xs : List α) :
    chunkSlices k (x :: xs) = (x :: xs).take k :: chunkSlices k ((x :: xs).drop k) := by
  show chunkF k (xs.length + 1) (x :: xs) = _
  simp only [chunkF]
  refine congrArg _ (chunkF_congr k hk _ _ ?_ _ (Nat.le_refl _))
  simp
  omega

theorem chunkSlices_ne_nil {α : Type} (k : Nat) (hk : 0 < k) (x : α) (xs : List α) :
    chunkSlices k (x :: xs) ≠ [] := by
  rw [chunkSlices_cons k hk]
  simp

theorem chunkSlices20_bounded {α : Type} :
    ∀ n : Nat, ∀ xs : List α, xs.length ≤ n →
      (chunkSlices 20 xs).length = (xs.length + 19) / 20 ∧
      ((chunkSlices 20 xs).dropLast.all (fun c => c.length == 20)) = true ∧
      ((chunkSlices 20 xs).all (fun c => decide (c.length ≤ 20))) = true ∧
      (chunkSlices 20 xs).join = xs := by
  intro n
  induction n with
  | zero =>
    intro xs hxs
    have : xs = [] := List.length_eq_zero.mp (Nat.le_zero.mp hxs)
    subst this
    refine ⟨by rw [chunkSlices_nil]; simp, rfl, rfl, rfl⟩
  | succ n ih =>
    intro xs hxs
    cases xs with
    | nil => refine ⟨by rw [chunkSlices_nil]; simp, rfl, rfl, rfl⟩
    | cons x xs' =>
      rw [chunkSlices_cons 20 (by omega)]
      simp only [List.length_cons] at hxs
      have hdrop : ((x :: xs').drop 20).length ≤ n := by
        simp only [List.length_drop, List.length_cons]
        omega
      have ihd := ih _ hdrop
      refine ⟨?_, ?_, ?_, ?_⟩
      · simp only [List.length_cons, ihd.1, List.length_drop]
        omega
      · rcases hd : (x :: xs').drop 20 with _ | ⟨y, ys⟩
        · simp [chunkSlices_nil]
        · rw [hd] at ihd
          have hne := chunkSlices_ne_nil 20 (by omega) y ys
          rw [List.dropLast_cons_of_ne_nil hne, List.all_cons]
          simp only [Bool.and_eq_true]
          refine ⟨?_, ihd.2.1⟩
          have hlen : 20 < xs'.length + 1 := by
            have h20 := congrArg List.length hd
            simp only [List.length_drop, List.length_cons] at h20
            omega
          simp only [List.length_take, beq_iff_eq, List.length_cons]
          omega
      · rw [List.all_cons]
        simp only [Bool.and_eq_true]
        refine ⟨?_, ?_⟩
        · simp only [List.length_take, decide_eq_true_eq]
          omega
        · rcases hd : (x :: xs').drop 20 with _ | ⟨y, ys⟩
          · simp [chunkSlices_nil]
          · rw [hd] at ihd
            exact ihd.2.2.1
      · rcases hd : (x :: xs').drop 20 with _ | ⟨y, ys⟩
        · have hxlen : (x :: xs').length ≤ 20 := by
            have h20 := congrArg List.length hd
            simp only [List.length_drop, List.length_cons, List.length_nil] at h20
            simp only [List.length_cons]
            omega
          rw [chunkSlices_nil]
          show List.take 20 (x :: xs') ++ [] = x :: xs'
          rw [List.append_nil]
          exact List.take_of_length_le (by simpa using hxlen)
        · rw [hd] at ihd
          show List.take 20 (x :: xs') ++ (chunkSlices 20 (y :: ys)).join = x :: xs'
          rw [ihd.2.2.2, ← hd]
          exact List.take_append_drop 20 (x :: xs')

/-- C1: the chunking step (doctor.py lines 72-73) with chunk size 20 partitions
any review-text sequence of length L into ceil(L/20) contiguous chunks in
order, each of length 20 except possibly the last (every chunk has length at
most 20), whose concatenation restores the sequence; for L = 45 the chunk
sizes are 20, 20, 5. -/
theorem chunking_partition (xs : List String) :
    (chunkSlices 20 xs).length = (xs.length + 19) / 20 ∧
    ((chunkSlices 20 xs).dropLast.all (fun c => c.length == 20)) = true ∧
    ((chunkSlices 20 xs).all (fun c => decide (c.length ≤ 20))) = true ∧
    (chunkSlices 20 xs).join = xs ∧
    ((chunkSlices 20 (List.range 45)).map List.length = [20, 20, 5]) := by
  have h := chunkSlices20_bounded xs.length xs (Nat.le_refl _)
  exact ⟨h.1, h.2.1, h.2.2.1, h.2.2.2, by decide⟩

/-! ### Sorting lemmas -/

theorem sortByDate_cons (x : Review) (l : List Review) :
    sortByDate (x :: l) =
      List.orderedInsert (fun a b : Review => a.date ≤ b.date) x (sortByDate l) := rfl

theorem filter_orderedInsert (x : Review) (d : String) :
    ∀ s : List Review,
      (List.orderedInsert (fun a b : Review => a.date ≤ b.date) x s).filter
        (fun z => z.date == d) =
      if x.date == d then x :: s.filter (fun z => z.date == d)
      else s.filter (fun z => z.date == d) := by
  intro s
  induction s with
  | nil =>
    rw [List.orderedInsert, List.filter_cons]
  | cons b s ih =>
    rw [List.orderedInsert]
    by_cases hxb : x.date ≤ b.date
    · rw [if_pos hxb, List.filter_cons, List.filter_cons]
    · rw [if_neg hxb, List.filter_cons, ih, List.filter_cons]
      cases hx : (x.date == d) with
      | true =>
        have hbd : (b.date == d) = false := by
          have hlt : b.date < x.date := lt_of_not_le hxb
          have hxd : x.date = d := eq_of_beq hx
          exact beq_eq_false_iff_ne.mpr (fun h => absurd (h ▸ hxd ▸ hlt) (lt_irrefl _))
        simp [hx, hbd]
      | false => simp [hx]

theorem filter_sortByDate (d : String) :
    ∀ l : List Review,
      (sortByDate l).filter (fun z => z.date == d) = l.filter (fun z => z.date == d) := by
  intro l
  induction l with
  | nil => rfl
  | cons x l ih =>
    rw [sortByDate_cons, filter_orderedInsert, List.filter_cons]
    cases h : (x.date == d) <;> simp [h] <;> exact ih

/-- C5: the persisted record sequence (crawler.py line 185,
`sorted(extracted, key=lambda x: x['date'])`) is non-decreasing in the date
field; records with equal dates keep their encounter order (for every date the
subsequence with that date is unchanged), the output is a permutation of the
parsed records, and the CSV pipeline sorts exactly this way. -/
theorem output_sorted_and_stable :
    ∀ l : List Review,
      List.Sorted (fun a b : Review => a.date ≤ b.date) (sortByDate l)
    ∧ (∀ d : String,
        (sortByDate l).filter (fun z => z.date == d) = l.filter (fun z => z.date == d))
    ∧ List.Perm (sortByDate l) l
    ∧ ∀ (is_kr : Bool) (raws : List RawReview),
        extract_reviews is_kr raws = sortByDate (raws.filterMap (processReview is_kr)) := by
  intro l
  exact ⟨List.sorted_insertionSort _ l, fun d => filter_sortByDate d l,
    List.perm_insertionSort _ l, fun _ _ => rfl⟩

/-! ### Decimal rendering lemmas -/

theorem char_isDigit_bounds {c : Char} (h : c.isDigit = true) :
    48 ≤ c.toNat ∧ c.toNat ≤ 57 := by
  simp [Char.isDigit] at h
  obtain ⟨h1, h2⟩ := h
  simp [UInt32.le_def, BitVec.le_def] at h1 h2
  exact ⟨h1, h2⟩

theorem natStrF_congr :
    ∀ f₁ : Nat, ∀ n : Nat, n < f₁ → ∀ f₂ : Nat, n < f₂ → natStrF f₁ n = natStrF f₂ n := by
  intro f₁
  induction f₁ with
  | zero => intro n hn; exact absurd hn (Nat.not_lt_zero n)
  | succ f₁ ih =>
    intro n hn f₂ hn₂
    cases f₂ with
    | zero => exact absurd hn₂ (Nat.not_lt_zero n)
    | succ f₂' =>
      simp only [natStrF]
      by_cases h10 : n < 10
      · rw [if_pos h10, if_pos h10]
      · rw [if_neg h10, if_neg h10, ih (n / 10) (by omega) f₂' (by omega)]

theorem natStrChars_lt10 {n : Nat} (h : n < 10) : natStrChars n = [digitChar n] := by
  show natStrF (n + 1) n = _
  simp only [natStrF, if_pos h]

theorem natStrChars_ge10 {n : Nat} (h : 10 ≤ n) :
    natStrChars n = natStrChars (n / 10) ++ [digitChar (n % 10)] := by
  show natStrF (n + 1) n = _
  simp only [natStrF, if_neg (Nat.not_lt.mpr h)]
  rw [natStrF_congr n (n / 10) (by omega) (n / 10 + 1) (Nat.lt_succ_self _)]
  rfl

theorem digitChar_facts {k : Nat} (h : k < 10) :
    (digitChar k).isDigit = true ∧ isSpacePy (digitChar k) = false ∧
    (digitChar k).toNat - 48 = k := by
  interval_cases k <;> exact ⟨by decide, by decide, by decide⟩

theorem natStrChars_props : ∀ n : Nat,
    natStrChars n ≠ [] ∧ ∀ c ∈ natStrChars n, c.isDigit = true ∧ isSpacePy c = false := by
  intro n
  induction n using Nat.strong_induction_on with
  | _ n ih =>
    by_cases h10 : n < 10
    · rw [natStrChars_lt10 h10]
      refine ⟨by simp, ?_⟩
      intro c hc
      rw [List.mem_singleton] at hc
      subst hc
      exact ⟨(digitChar_facts h10).1, (digitChar_facts h10).2.1⟩
    · rw [natStrChars_ge10 (Nat.not_lt.mp h10)]
      refine ⟨by simp, ?_⟩
      intro c hc
      rcases List.mem_append.mp hc with h | h
      · exact (ih (n / 10) (Nat.div_lt_self (by omega) (by omega))).2 c h
      · rw [List.mem_singleton] at h
        subst h
        have hm : n % 10 < 10 := Nat.mod_lt n (by omega)
        exact ⟨(digitChar_facts hm).1, (digitChar_facts hm).2.1⟩

theorem natStrChars_length_le :
    ∀ k : Nat, 1 ≤ k → ∀ n : Nat, n < 10 ^ k → (natStrChars n).length ≤ k := by
  intro k
  induction k with
  | zero => intro h; exact absurd h (by omega)
  | succ k ih =>
    intro _ n hn
    rcases Nat.eq_zero_or_pos k with hk0 | hkpos
    · subst hk0
      rw [pow_one] at hn
      rw [natStrChars_lt10 hn]
      simp
    · by_cases h10 : n < 10
      · rw [natStrChars_lt10 h10]
        simp
      · rw [natStrChars_ge10 (Nat.not_lt.mp h10)]
        have hdiv : n / 10 < 10 ^ k := by
          rw [pow_succ] at hn
          omega
        have hlen := ih hkpos (n / 10) hdiv
        rw [List.length_append]
        simp
        omega

theorem natStrChars_length_ge :
    ∀ k n : Nat, 10 ^ k ≤ n → k + 1 ≤ (natStrChars n).length := by
  intro k
  induction k with
  | zero =>
    intro n _
    cases h : natStrChars n with
    | nil => exact absurd h (natStrChars_props n).1
    | cons c cs => simp
  | succ k ih =>
    intro n hn
    have h10 : 10 ≤ n := by
      have h1 : (10:Nat) ^ 1 ≤ 10 ^ (k + 1) := Nat.pow_le_pow_right (by omega) (by omega)
      rw [pow_one] at h1
      omega
    rw [natStrChars_ge10 h10, List.length_append, List.length_singleton]
    have hdiv : 10 ^ k ≤ n / 10 := by
      rw [pow_succ] at hn
      omega
    have := ih (n / 10) hdiv
    omega

theorem padZeros_eq_natStr {w n : Nat} (h : w ≤ (natStrChars n).length) :
    padZeros w n = natStr n := by
  unfold padZeros natStr
  rw [Nat.sub_eq_zero_of_le h]
  rfl

theorem padZeros4_eq_natStr {y : Nat} (h : 1000 ≤ y) : padZeros 4 y = natStr y := by
  refine padZeros_eq_natStr (natStrChars_length_ge 3 y ?_)
  norm_num
  omega

theorem valDigits_append_one (ds : List Char) (c : Char) :
    valDigits (ds ++ [c]) = 10 * valDigits ds + (c.toNat - 48) := by
  simp [valDigits, List.foldl_append]

theorem valDigits_natStrChars : ∀ n : Nat, valDigits (natStrChars n) = n := by
  intro n
  induction n using Nat.strong_induction_on with
  | _ n ih =>
    by_cases h10 : n < 10
    · rw [natStrChars_lt10 h10]
      show 10 * 0 + ((digitChar n).toNat - 48) = n
      rw [(digitChar_facts h10).2.2]
      omega
    · rw [natStrChars_ge10 (Nat.not_lt.mp h10), valDigits_append_one,
        ih (n / 10) (Nat.div_lt_self (by omega) (by omega)),
        (digitChar_facts (Nat.mod_lt n (by omega))).2.2]
      omega

theorem valDigits_lt :
    ∀ ds : List Char, (∀ c ∈ ds, c.isDigit = true) → valDigits ds < 10 ^ ds.length := by
  intro ds
  induction ds using List.reverseRecOn with
  | nil => intro _; simp [valDigits]
  | append_singleton ds c ih =>
    intro h
    rw [valDigits_append_one]
    have hds := ih (fun x hx => h x (by simp [hx]))
    have hc : c.toNat - 48 ≤ 9 := by
      have := (char_isDigit_bounds (h c (by simp))).2
      omega
    rw [List.length_append, List.length_singleton, pow_succ]
    omega

/-! ### Zero-padding and ISO-shape lemmas -/

theorem padZeros_data (w n : Nat) :
    (padZeros w n).data = List.replicate (w - (natStrChars n).length) '0' ++ natStrChars n := rfl

theorem padZeros_length {w n : Nat} (h1 : 1 ≤ w) (h : n < 10 ^ w) :
    (padZeros w n).data.length = w := by
  rw [padZeros_data, List.length_append, List.length_replicate]
  have := natStrChars_length_le w h1 n h
  omega

theorem padZeros_digits (w n : Nat) : ∀ c ∈ (padZeros w n).data, c.isDigit = true := by
  rw [padZeros_data]
  intro c hc
  rcases List.mem_append.mp hc with h | h
  · rw [List.eq_of_mem_replicate h]; decide
  · exact ((natStrChars_props n).2 c h).1

theorem isISODate_parts {a b c : List Char} (ha4 : a.length = 4) (hb2 : b.length = 2)
    (hc2 : c.length = 2) (ha : ∀ x ∈ a, x.isDigit = true) (hb : ∀ x ∈ b, x.isDigit = true)
    (hc : ∀ x ∈ c, x.isDigit = true) :
    isISODate (String.mk (a ++ '-' :: (b ++ '-' :: c))) = true := by
  rcases a with _ | ⟨a1, _ | ⟨a2, _ | ⟨a3, _ | ⟨a4, _ | rest⟩⟩⟩⟩ <;> simp at ha4
  rcases b with _ | ⟨b1, _ | ⟨b2, _ | rest⟩⟩ <;> simp at hb2
  rcases c with _ | ⟨c1, _ | ⟨c2, _ | rest⟩⟩ <;> simp at hc2
  have h1 := ha a1 (by simp)
  have h2 := ha a2 (by simp)
  have h3 := ha a3 (by simp)
  have h4 := ha a4 (by simp)
  have h5 := hb b1 (by simp)
  have h6 := hb b2 (by simp)
  have h7 := hc c1 (by simp)
  have h8 := hc c2 (by simp)
  simp [isISODate, h1, h2, h3, h4, h5, h6, h7, h8]

/-- The date string built by the Korean formatting (and by `strftime`) has the
ISO shape whenever the three numbers fit their widths. -/
theorem isISODate_padded {y m d : Nat} (hy : y < 10000) (hm : m < 100) (hd : d < 100) :
    isISODate (padZeros 4 y ++ "-" ++ padZeros 2 m ++ "-" ++ padZeros 2 d) = true := by
  have hdata : (padZeros 4 y ++ "-" ++ padZeros 2 m ++ "-" ++ padZeros 2 d).data =
      (padZeros 4 y).data ++ '-' :: ((padZeros 2 m).data ++ '-' :: (padZeros 2 d).data) := by
    simp [String.data_append]
  have := isISODate_parts (a := (padZeros 4 y).data) (b := (padZeros 2 m).data)
    (c := (padZeros 2 d).data)
    (padZeros_length (by omega) (by simpa using hy))
    (padZeros_length (by omega) (by simpa using hm))
    (padZeros_length (by omega) (by simpa using hd))
    (padZeros_digits 4 y) (padZeros_digits 2 m) (padZeros_digits 2 d)
  show isISODate (String.mk (padZeros 4 y ++ "-" ++ padZeros 2 m ++ "-" ++ padZeros 2 d).data) = true
  rw [hdata]
  exact this

/-! ### Literal-matching lemmas and rating-parser facts -/

theorem eatLit_self_append (lit rest : List Char) :
    eatLit lit (lit ++ rest) = Option.some rest := by
  induction lit with
  | nil => rfl
  | cons c cs ih => simp [eatLit, ih]

theorem leadsWith_self (lit : List Char) : leadsWith lit lit = true := by
  have := eatLit_self_append lit []
  rw [List.append_nil] at this
  simp [leadsWith, this]

theorem searchRated_cons_some {c : Char} {cs rest : List Char}
    (h : eatLit ratedLit (c :: cs) = Option.some rest) :
    searchRated (c :: cs) =
      if (rest.takeWhile Char.isDigit).isEmpty then searchRated cs
      else if leadsWith starsLit (rest.dropWhile Char.isDigit) then
        Option.some (valDigits (rest.takeWhile Char.isDigit))
      else searchRated cs := by
  rw [searchRated, h]

theorem searchRated_exact (ds : List Char) (hne : ds ≠ [])
    (hall : ∀ c ∈ ds, c.isDigit = true) :
    searchRated (ratedLit ++ (ds ++ starsLit)) = Option.some (valDigits ds) := by
  have hemp : ds.isEmpty = false := by
    cases ds with
    | nil => exact absurd rfl hne
    | cons _ _ => rfl
  show searchRated ('R' :: ("ated ".data ++ (ds ++ starsLit))) = _
  have he : eatLit ratedLit ('R' :: ("ated ".data ++ (ds ++ starsLit))) =
      Option.some (ds ++ starsLit) := eatLit_self_append ratedLit (ds ++ starsLit)
  rw [searchRated_cons_some he]
  have htake : (ds ++ starsLit).takeWhile Char.isDigit = ds := by
    rw [List.takeWhile_append_of_pos hall]
    show ds ++ [] = ds
    exact List.append_nil ds
  have hdrop : (ds ++ starsLit).dropWhile Char.isDigit = starsLit :=
    List.dropWhile_append_of_pos hall
  rw [htake, hdrop, hemp, leadsWith_self]
  rfl

theorem searchRatedKR_exact (ds : List Char) (hne : ds ≠ [])
    (hall : ∀ c ∈ ds, c.isDigit = true) :
    searchRatedKR (ds ++ krRatingLit) = Option.some (valDigits ds) := by
  cases ds with
  | nil => exact absurd rfl hne
  | cons c ds' =>
    have hc : c.isDigit = true := hall c (by simp)
    have hds' : ∀ x ∈ ds', x.isDigit = true := fun x hx => hall x (by simp [hx])
    show searchRatedKR (c :: (ds' ++ krRatingLit)) = _
    simp only [searchRatedKR, hc, if_pos]
    have hdrop : (ds' ++ krRatingLit).dropWhile Char.isDigit = krRatingLit :=
      List.dropWhile_append_of_pos hds'
    have htake : (ds' ++ krRatingLit).takeWhile Char.isDigit = ds' := by
      rw [List.takeWhile_append_of_pos hds']
      show ds' ++ [] = ds'
      exact List.append_nil ds'
    rw [hdrop, leadsWith_self, htake]
    rfl

/-- C3 corrected, counterexample: the rating regexes capture any digit run, so
the label `"Rated 10 stars"` parses to rating 10, and the extracted record
persists a present rating outside 1..5. -/
theorem rating_range_cex :
    parseRating false "Rated 10 stars" = Option.some 10 ∧
    extract_reviews false [⟨"great", "Rated 10 stars", "July 9, 2023"⟩] =
      [⟨"great", Option.some 10, "2023-07-09"⟩] ∧
    ¬(10 ≤ 5) := by
  exact ⟨rfl, rfl, by decide⟩

/-- C3 amended: rating parsing returns the embedded integer `N` for every
label matching the locale's pattern — for any digit run, not only `N` in 1..5
(so 1..5 labels give 1..5, but e.g. `"Rated 10 stars"` gives 10) — and returns
absent for labels the pattern does not match; a present rating in an extracted
record therefore lies in 1–5 only when the source labels embed 1..5. -/
theorem rating_parsing_amended :
    (∀ ds : List Char, ds ≠ [] → (∀ c ∈ ds, c.isDigit = true) →
      parseRating false ("Rated " ++ String.mk ds ++ " stars") = Option.some (valDigits ds) ∧
      parseRating true (String.mk ds ++ "개를 받았습니다") = Option.some (valDigits ds)) ∧
    (∀ n : Nat, parseRating false ("Rated " ++ natStr n ++ " stars") = Option.some n ∧
      parseRating true (natStr n ++ "개를 받았습니다") = Option.some n) ∧
    ([1, 2, 3, 4, 5].all
      (fun n => parseRating false ("Rated " ++ natStr n ++ " stars") == Option.some n)) = true ∧
    parseRating false "five stars, Rated excellent" = Option.none ∧
    parseRating true "별점 만점" = Option.none := by
  have hds : ∀ ds : List Char, ds ≠ [] → (∀ c ∈ ds, c.isDigit = true) →
      parseRating false ("Rated " ++ String.mk ds ++ " stars") = Option.some (valDigits ds) ∧
      parseRating true (String.mk ds ++ "개를 받았습니다") = Option.some (valDigits ds) := by
    intro ds hne hall
    constructor
    · show searchRated ("Rated " ++ String.mk ds ++ " stars").data = _
      have hdata : ("Rated " ++ String.mk ds ++ " stars").data =
          ratedLit ++ (ds ++ starsLit) := by
        simp [String.data_append, ratedLit, starsLit]
      rw [hdata]
      exact searchRated_exact ds hne hall
    · show searchRatedKR (String.mk ds ++ "개를 받았습니다").data = _
      have hdata : (String.mk ds ++ "개를 받았습니다").data = ds ++ krRatingLit := by
        simp [String.data_append, krRatingLit]
      rw [hdata]
      exact searchRatedKR_exact ds hne hall
  refine ⟨hds, ?_, by decide, rfl, rfl⟩
  intro n
  have h := hds (natStrChars n) (natStrChars_props n).1
    (fun c hc => ((natStrChars_props n).2 c hc).1)
  rw [valDigits_natStrChars] at h
  exact h

/-- Closed instance of the amended rating property at a concrete digit run. -/
theorem rating_parsing_amended_witness :
    parseRating false ("Rated " ++ String.mk ['7'] ++ " stars") =
      Option.some (valDigits ['7']) ∧
    parseRating true (String.mk ['7'] ++ "개를 받았습니다") =
      Option.some (valDigits ['7']) :=
  rating_parsing_amended.1 ['7'] (by decide) (by decide)

/-! ### Date-parsing lemmas -/

theorem natStr_data (n : Nat) : (natStr n).data = natStrChars n := rfl

theorem takeWhile_none {p : Char → Bool} {l : List Char} (h : ∀ c ∈ l, p c = false) :
    l.takeWhile p = [] := by
  cases l with
  | nil => rfl
  | cons c cs => rw [List.takeWhile_cons, if_neg (by simp [h c (by simp)])]

theorem dropWhile_none {p : Char → Bool} {l : List Char} (h : ∀ c ∈ l, p c = false) :
    l.dropWhile p = l := by
  cases l with
  | nil => rfl
  | cons c cs => rw [List.dropWhile_cons, if_neg (by simp [h c (by simp)])]

theorem takeWhile_all {p : Char → Bool} {l : List Char} (h : ∀ c ∈ l, p c = true) :
    l.takeWhile p = l := by
  induction l with
  | nil => rfl
  | cons c cs ih =>
    rw [List.takeWhile_cons, if_pos (h c (by simp)), ih fun x hx => h x (by simp [hx])]

theorem dropWhile_all {p : Char → Bool} {l : List Char} (h : ∀ c ∈ l, p c = true) :
    l.dropWhile p = [] := by
  induction l with
  | nil => rfl
  | cons c cs ih =>
    rw [List.dropWhile_cons, if_pos (h c (by simp)), ih fun x hx => h x (by simp [hx])]

theorem takeWhile_append_nil {p : Char → Bool} {l l₂ : List Char} (hne : l ≠ [])
    (h : ∀ c ∈ l, p c = false) : (l ++ l₂).takeWhile p = [] := by
  cases l with
  | nil => exact absurd rfl hne
  | cons c cs =>
    rw [List.cons_append, List.takeWhile_cons, if_neg (by simp [h c (by simp)])]

theorem dropWhile_append_id {p : Char → Bool} {l l₂ : List Char} (hne : l ≠ [])
    (h : ∀ c ∈ l, p c = false) : (l ++ l₂).dropWhile p = l ++ l₂ := by
  cases l with
  | nil => exact absurd rfl hne
  | cons c cs =>
    rw [List.cons_append, List.dropWhile_cons, if_neg (by simp [h c (by simp)])]

theorem daysInMonth_le (y m : Nat) : daysInMonth y m ≤ 31 := by
  unfold daysInMonth
  split_ifs <;> omega

theorem enDateRest_exact {m d y : Nat} (hd1 : 1 ≤ d) (hd2 : d ≤ daysInMonth y m)
    (hy1 : 1000 ≤ y) (hy2 : y ≤ 9999) :
    enDateRest m (' ' :: (natStrChars d ++ (',' :: ' ' :: natStrChars y))) =
      Option.some (natStr y ++ "-" ++ padZeros 2 m ++ "-" ++ padZeros 2 d) := by
  have hdp := natStrChars_props d
  have hyp := natStrChars_props y
  have hdall : ∀ c ∈ natStrChars d, Char.isDigit c = true := fun c hc => (hdp.2 c hc).1
  have hyall : ∀ c ∈ natStrChars y, Char.isDigit c = true := fun c hc => (hyp.2 c hc).1
  have hdnsp : ∀ c ∈ natStrChars d, isSpacePy c = false := fun c hc => (hdp.2 c hc).2
  have hynsp : ∀ c ∈ natStrChars y, isSpacePy c = false := fun c hc => (hyp.2 c hc).2
  have hdlen : (natStrChars d).length ≤ 2 := by
    refine natStrChars_length_le 2 (by omega) d ?_
    have := daysInMonth_le y m
    omega
  have hylen : (natStrChars y).length = 4 := by
    have hle : (natStrChars y).length ≤ 4 := natStrChars_length_le 4 (by omega) y (by omega)
    have hge : 4 ≤ (natStrChars y).length := by
      refine natStrChars_length_ge 3 y ?_
      norm_num
      omega
    omega
  have hdne := hdp.1
  have hyne := hyp.1
  have hsp1 : (' ' :: (natStrChars d ++ (',' :: ' ' :: natStrChars y))).takeWhile isSpacePy =
      [' '] := by
    rw [List.takeWhile_cons, if_pos (by decide), takeWhile_append_nil hdne hdnsp]
  have hr2 : (' ' :: (natStrChars d ++ (',' :: ' ' :: natStrChars y))).dropWhile isSpacePy =
      natStrChars d ++ (',' :: ' ' :: natStrChars y) := by
    rw [List.dropWhile_cons, if_pos (by decide), dropWhile_append_id hdne hdnsp]
  have hds : (natStrChars d ++ (',' :: ' ' :: natStrChars y)).takeWhile Char.isDigit =
      natStrChars d := by
    rw [List.takeWhile_append_of_pos hdall, List.takeWhile_cons, if_neg (by decide),
      List.append_nil]
  have hr3 : (natStrChars d ++ (',' :: ' ' :: natStrChars y)).dropWhile Char.isDigit =
      ',' :: ' ' :: natStrChars y := by
    rw [List.dropWhile_append_of_pos hdall, List.dropWhile_cons, if_neg (by decide)]
  have hsp2 : (' ' :: natStrChars y).takeWhile isSpacePy = [' '] := by
    rw [List.takeWhile_cons, if_pos (by decide), takeWhile_none hynsp]
  have hr5 : (' ' :: natStrChars y).dropWhile isSpacePy = natStrChars y := by
    rw [List.dropWhile_cons, if_pos (by decide), dropWhile_none hynsp]
  have hys : (natStrChars y).takeWhile Char.isDigit = natStrChars y := takeWhile_all hyall
  have hr6 : (natStrChars y).dropWhile Char.isDigit = [] := dropWhile_all hyall
  have hdlen0 : ((natStrChars d).length == 0) = false := by
    rw [beq_eq_false_iff_ne]
    simpa [List.length_eq_zero] using hdne
  have hylen4 : (!((natStrChars y).length == 4)) = false := by
    simp [hylen]
  have hdlen2 : decide (2 < (natStrChars d).length) = false :=
    decide_eq_false (Nat.not_lt.mpr hdlen)
  have hvd : valDigits (natStrChars d) = d := valDigits_natStrChars d
  have hvy : valDigits (natStrChars y) = y := valDigits_natStrChars y
  have hy0 : (valDigits (natStrChars y) == 0) = false := by
    rw [hvy, beq_eq_false_iff_ne]
    omega
  have hd0 : (valDigits (natStrChars d) == 0) = false := by
    rw [hvd, beq_eq_false_iff_ne]
    omega
  have hdim : decide (daysInMonth (valDigits (natStrChars y)) m
      < valDigits (natStrChars d)) = false := by
    rw [hvd, hvy]
    exact decide_eq_false (Nat.not_lt.mpr hd2)
  simp only [enDateRest, hsp1, hr2, hds, hr3, hsp2, hr5, hys, hr6, hdlen0,
    hdlen2, hylen4, hy0, hd0, hdim, hvd, hvy]
  simp
  exact ⟨by omega, by omega, hd2⟩

theorem tryMonths_exact :
    ∀ mi : Nat, 1 ≤ mi → mi ≤ 12 → ∀ rest : List Char,
      tryMonths monthIdxs ((monthName mi).data ++ rest) = Option.some (mi, rest) := by
  intro mi h1 h2
  interval_cases mi <;> intro rest <;> rfl

theorem enDate_exact {mi d y : Nat} (hm1 : 1 ≤ mi) (hm2 : mi ≤ 12) (hd1 : 1 ≤ d)
    (hd2 : d ≤ daysInMonth y mi) (hy1 : 1000 ≤ y) (hy2 : y ≤ 9999) :
    enDate (monthName mi ++ " " ++ natStr d ++ ", " ++ natStr y) =
      Option.some (padZeros 4 y ++ "-" ++ padZeros 2 mi ++ "-" ++ padZeros 2 d) := by
  have hdata : (monthName mi ++ " " ++ natStr d ++ ", " ++ natStr y).data =
      (monthName mi).data ++ (' ' :: (natStrChars d ++ (',' :: ' ' :: natStrChars y))) := by
    simp [String.data_append, natStr_data, List.append_assoc]
  simp only [enDate, hdata, tryMonths_exact mi hm1 hm2]
  rw [enDateRest_exact hd1 hd2 hy1 hy2, padZeros4_eq_natStr hy1]

theorem runsOf_krFormat (y m d : Nat) :
    runsOf Char.isDigit (natStr y ++ "년 " ++ natStr m ++ "월 " ++ natStr d ++ "일").data =
      [natStrChars y, natStrChars m, natStrChars d] := by
  have hyp := natStrChars_props y
  have hmp := natStrChars_props m
  have hdp := natStrChars_props d
  have hdata : (natStr y ++ "년 " ++ natStr m ++ "월 " ++ natStr d ++ "일").data =
      natStrChars y ++ ('년' :: ' ' ::
        (natStrChars m ++ ('월' :: ' ' :: (natStrChars d ++ ['일'])))) := by
    simp [String.data_append, natStr_data, List.append_assoc]
  rw [hdata]
  rw [runsOf_append_run hyp.1 (fun c hc => (hyp.2 c hc).1)
    (by intro c' cs' hh; cases hh; decide)]
  rw [runsOf_cons_neg _ (by decide), runsOf_cons_neg _ (by decide)]
  rw [runsOf_append_run hmp.1 (fun c hc => (hmp.2 c hc).1)
    (by intro c' cs' hh; cases hh; decide)]
  rw [runsOf_cons_neg _ (by decide), runsOf_cons_neg _ (by decide)]
  rw [runsOf_append_run hdp.1 (fun c hc => (hdp.2 c hc).1)
    (by intro c' cs' hh; cases hh; decide)]
  rw [runsOf_cons_neg _ (by decide), runsOf_nil]

theorem krDate_canonical (y m d : Nat) :
    krDate (natStr y ++ "년 " ++ natStr m ++ "월 " ++ natStr d ++ "일") =
      padZeros 4 y ++ "-" ++ padZeros 2 m ++ "-" ++ padZeros 2 d := by
  simp only [krDate, runsOf_krFormat, valDigits_natStrChars]

/-- C2: date normalization. For the Korean branch, any date string whose first
three digit runs are y, m, d is formatted `%04d-%02d-%02d` (so a canonical
`"Y년 M월 D일"` date becomes the zero-padded ISO `YYYY-MM-DD`); for the
English branch, every `"Month D, YYYY"` string with a calendar-valid day and
a four-digit year parses and renders as the equivalent zero-padded ISO date;
`2023/7/9` gives `"2023-07-09"` on both paths. -/
theorem date_parsing_iso :
    (∀ y m d : Nat,
      krDate (natStr y ++ "년 " ++ natStr m ++ "월 " ++ natStr d ++ "일") =
        padZeros 4 y ++ "-" ++ padZeros 2 m ++ "-" ++ padZeros 2 d) ∧
    (∀ (s : String) (a b c : List Char) (rest : List (List Char)),
      runsOf Char.isDigit s.data = a :: b :: c :: rest →
      krDate s = padZeros 4 (valDigits a) ++ "-" ++ padZeros 2 (valDigits b) ++ "-" ++
        padZeros 2 (valDigits c)) ∧
    (∀ mi d y : Nat, 1 ≤ mi → mi ≤ 12 → 1 ≤ d → d ≤ daysInMonth y mi →
      1000 ≤ y → y ≤ 9999 →
      enDate (monthName mi ++ " " ++ natStr d ++ ", " ++ natStr y) =
        Option.some (padZeros 4 y ++ "-" ++ padZeros 2 mi ++ "-" ++ padZeros 2 d)) ∧
    krDate "2023년 7월 9일" = "2023-07-09" ∧
    enDate "July 9, 2023" = Option.some "2023-07-09" := by
  refine ⟨krDate_canonical, ?_, ?_, by decide, by decide⟩
  · intro s a b c rest h
    simp only [krDate, h]
  · intro mi d y hm1 hm2 hd1 hd2 hy1 hy2
    exact enDate_exact hm1 hm2 hd1 hd2 hy1 hy2

/-- Closed instance of the date-parsing property at July 9, 2023. -/
theorem date_parsing_iso_witness :
    enDate (monthName 7 ++ " " ++ natStr 9 ++ ", " ++ natStr 2023) =
      Option.some (padZeros 4 2023 ++ "-" ++ padZeros 2 7 ++ "-" ++ padZeros 2 9) ∧
    krDate (natStr 2023 ++ "년 " ++ natStr 7 ++ "월 " ++ natStr 9 ++ "일") =
      padZeros 4 2023 ++ "-" ++ padZeros 2 7 ++ "-" ++ padZeros 2 9 ∧
    krDate "no numerals here" = "no numerals here" :=
  ⟨date_parsing_iso.2.2.1 7 9 2023 (by decide) (by decide) (by decide) (by decide)
      (by decide) (by decide),
    date_parsing_iso.1 2023 7 9,
    by decide⟩

/-! ### Persisted-date lemmas -/

theorem tryMonths_mem :
    ∀ (is : List Nat) (cs : List Char) (m : Nat) (r : List Char),
      tryMonths is cs = Option.some (m, r) → m ∈ is := by
  intro is
  induction is with
  | nil => intro cs m r h; cases h
  | cons i is ih =>
    intro cs m r h
    simp only [tryMonths] at h
    cases he : eatCI (monthName i).data cs with
    | some rest =>
      rw [he] at h
      simp only [Option.some.injEq, Prod.mk.injEq] at h
      rcases h with ⟨rfl, rfl⟩
      simp
    | none =>
      rw [he] at h
      exact List.mem_cons_of_mem _ (ih cs m r h)

theorem enDate_shape (s t : String) (h : enDate s = Option.some t) :
    ∃ y m d : Nat, 1 ≤ y ∧ y ≤ 9999 ∧ 1 ≤ m ∧ m ≤ 12 ∧ 1 ≤ d ∧ d ≤ 31 ∧
      t = natStr y ++ "-" ++ padZeros 2 m ++ "-" ++ padZeros 2 d ∧
      (1000 ≤ y → isISODate t = true) := by
  simp only [enDate] at h
  cases htm : tryMonths monthIdxs s.data with
  | none => rw [htm] at h; cases h
  | some p =>
    obtain ⟨m, r1⟩ := p
    rw [htm] at h
    have hm12 : 1 ≤ m ∧ m ≤ 12 := by
      have hm := tryMonths_mem _ _ _ _ htm
      simp [monthIdxs] at hm
      omega
    simp only [enDateRest] at h
    split at h
    · cases h
    · split at h
      · cases h
      · split at h
        case _ r4 heq =>
          split at h
          · cases h
          · split at h
            · cases h
            · split at h
              · cases h
              · split at h
                · cases h
                · split at h
                  · cases h
                  · rename_i hdlencond hsp2 hylen hr6 hy0 hdok
                    simp only [Option.some.injEq] at h
                    subst h
                    simp at hylen hy0 hdok
                    have hydig : ∀ c ∈ List.takeWhile Char.isDigit
                        (List.dropWhile isSpacePy r4), c.isDigit = true :=
                      fun c hc => List.mem_takeWhile_imp hc
                    have hy9999 : valDigits (List.takeWhile Char.isDigit
                        (List.dropWhile isSpacePy r4)) ≤ 9999 := by
                      have := valDigits_lt _ hydig
                      rw [hylen] at this
                      norm_num at this
                      omega
                    have hd31 : valDigits (List.takeWhile Char.isDigit
                        (List.dropWhile isSpacePy r1)) ≤ 31 := by
                      have := daysInMonth_le (valDigits (List.takeWhile Char.isDigit
                        (List.dropWhile isSpacePy r4))) m
                      omega
                    refine ⟨valDigits (List.takeWhile Char.isDigit
                        (List.dropWhile isSpacePy r4)), m,
                      valDigits (List.takeWhile Char.isDigit (List.dropWhile isSpacePy r1)),
                      by omega, hy9999, hm12.1, hm12.2, by omega, hd31, rfl, ?_⟩
                    intro hy1000
                    rw [← padZeros4_eq_natStr hy1000]
                    exact isISODate_padded (by omega) (by omega) (by omega)
        case _ heq => cases h

theorem mem_extract_reviews {is_kr : Bool} {raws : List RawReview} {r : Review}
    (h : r ∈ extract_reviews is_kr raws) :
    ∃ raw ∈ raws, processReview is_kr raw = Option.some r := by
  unfold extract_reviews sortByDate at h
  rw [List.mem_insertionSort] at h
  exact List.mem_filterMap.mp h

/-- C7 corrected, counterexample: normalization is not guaranteed in either
locale. A Korean date string with fewer than three numerals (here `"어제"`,
"yesterday") is persisted verbatim; and an English date with a leading-zero
year, `"July 9, 0023"`, parses (`%Y` is any four digits) but is persisted as
`"23-07-09"` because the platform `strftime` leaves years below 1000 unpadded —
both records survive extraction with a non-ISO date field (while a 2-digit
year string like `"July 9, 23"` is rejected by `%Y` and dropped). -/
theorem persisted_date_cex :
    extract_reviews true [⟨"tt", "5개를 받았습니다", "어제"⟩] =
      [⟨"tt", Option.some 5, "어제"⟩] ∧
    isISODate "어제" = false ∧
    extract_reviews false [⟨"aa", "no stars", "July 9, 0023"⟩] =
      [⟨"aa", Option.none, "23-07-09"⟩] ∧
    isISODate "23-07-09" = false ∧
    extract_reviews false [⟨"bb", "no stars", "July 9, 23"⟩] = [] :=
  ⟨rfl, by decide, rfl, by decide, rfl⟩

/-- C7 amended: every English-locale record's date is `strftime`'s
`Y-MM-DD` rendering of a parsed date — month and day zero-padded, the year a
four-digit-parsed value of 1..9999 rendered without padding — which has the
ISO `YYYY-MM-DD` shape exactly in the realistic case that the year is at least
1000; a Korean-locale record's date is `krDate` of the stripped raw text,
which has the ISO shape whenever the raw date carries at least three numerals
fitting the widths 4/2/2, but is the raw string itself (possibly unnormalized)
when it carries fewer than three numerals. -/
theorem persisted_date_amended :
    (∀ (raws : List RawReview) (r : Review), r ∈ extract_reviews false raws →
      ∃ y m d : Nat, 1 ≤ y ∧ y ≤ 9999 ∧ 1 ≤ m ∧ m ≤ 12 ∧ 1 ≤ d ∧ d ≤ 31 ∧
        r.date = natStr y ++ "-" ++ padZeros 2 m ++ "-" ++ padZeros 2 d ∧
        (1000 ≤ y → isISODate r.date = true)) ∧
    (∀ (s : String) (a b c : List Char) (rest : List (List Char)),
      runsOf Char.isDigit s.data = a :: b :: c :: rest →
      valDigits a < 10000 → valDigits b < 100 → valDigits c < 100 →
      isISODate (krDate s) = true) ∧
    (∀ s : String, (runsOf Char.isDigit s.data).length < 3 → krDate s = s) ∧
    (∀ (raws : List RawReview) (r : Review), r ∈ extract_reviews true raws →
      ∃ raw ∈ raws, r.date = krDate (pyStrip raw.dateText)) := by
  refine ⟨?_, ?_, ?_, ?_⟩
  · intro raws r hmem
    obtain ⟨raw, _, hp⟩ := mem_extract_reviews hmem
    simp only [processReview] at hp
    rw [if_neg (by simp)] at hp
    cases he : enDate (pyStrip raw.dateText) with
    | none => rw [he] at hp; cases hp
    | some dd =>
      rw [he] at hp
      simp only [Option.some.injEq] at hp
      subst hp
      exact enDate_shape _ _ he
  · intro s a b c rest h ha hb hc
    simp only [krDate, h]
    exact isISODate_padded ha hb hc
  · intro s hlen
    rcases hru : runsOf Char.isDigit s.data with _ | ⟨a, _ | ⟨b, _ | ⟨c, rest⟩⟩⟩
    · simp [krDate, hru]
    · simp [krDate, hru]
    · simp [krDate, hru]
    · rw [hru] at hlen
      simp at hlen
      omega
  · intro raws r hmem
    obtain ⟨raw, hraw, hp⟩ := mem_extract_reviews hmem
    refine ⟨raw, hraw, ?_⟩
    simp only [processReview] at hp
    rw [if_pos (by simp)] at hp
    simp only [Option.some.injEq] at hp
    subst hp
    rfl

/-- Closed instances of the amended persisted-date property. -/
theorem persisted_date_amended_witness :
    isISODate (krDate "2023년 7월 9일") = true ∧
    krDate "어제" = "어제" :=
  ⟨persisted_date_amended.2.1 "2023년 7월 9일" "2023".data "7".data "9".data []
      (by decide) (by decide) (by decide) (by decide),
    persisted_date_amended.2.2.1 "어제" (by decide)⟩

/-! ### Chunk-loop lemmas -/

theorem processChunks_all_ok (respond : Nat → Except String String) (u : String)
    (f : Nat → String) :
    ∀ (cs : List (List (Option String))) (k : Nat),
      (∀ i, i < cs.length → respond (k + i) = Except.ok (f (k + i))) →
      processChunks respond u cs k =
        (cs.map (chunkPrompt u),
          Except.ok ((List.range cs.length).map (fun i => f (k + i)))) := by
  intro cs
  induction cs with
  | nil => intro k _; rfl
  | cons c cs ih =>
    intro k h
    have h0 : respond k = Except.ok (f k) := by simpa using h 0 (by simp)
    have hrec := ih (k + 1) (by
      intro i hi
      have := h (i + 1) (by simp; omega)
      rw [show k + 1 + i = k + (i + 1) by omega]
      exact this)
    simp only [processChunks, h0, hrec]
    refine Prod.ext rfl ?_
    refine congrArg Except.ok ?_
    simp only [List.length_cons, List.range_succ_eq_map, List.map_cons, List.map_map,
      Nat.add_zero]
    refine congrArg (List.cons (f k)) ?_
    refine List.map_congr_left ?_
    intro i _
    show f (k + 1 + i) = f (k + Nat.succ i)
    congr 1
    omega

theorem processChunks_fail (respond : Nat → Except String String) (u : String)
    (f : Nat → String) (e : String) :
    ∀ (cs : List (List (Option String))) (k j : Nat), j < cs.length →
      (∀ i, i < j → respond (k + i) = Except.ok (f (k + i))) →
      respond (k + j) = Except.error e →
      processChunks respond u cs k =
        ((cs.take (j + 1)).map (chunkPrompt u), Except.error e) := by
  intro cs
  induction cs with
  | nil => intro k j hj; simp at hj
  | cons c cs ih =>
    intro k j hj hok herr
    cases j with
    | zero =>
      have h0 : respond k = Except.error e := by simpa using herr
      simp only [processChunks, h0]
      rfl
    | succ j =>
      have h0 : respond k = Except.ok (f k) := by
        simpa using hok 0 (by omega)
      have hrec := ih (k + 1) j (by simpa using Nat.lt_of_succ_lt_succ hj)
        (by
          intro i hi
          have := hok (i + 1) (by omega)
          rw [show k + 1 + i = k + (i + 1) by omega]
          exact this)
        (by
          rw [show k + 1 + j = k + (j + 1) by omega]
          exact herr)
      simp only [processChunks, h0, hrec]
      rfl

/-- C8: in `generate_insights` (doctor.py lines 72-93), a failing chunk call
aborts the run at once — the calls sent are exactly the prompts for chunks
0..j, each once (no retry), no later chunk call and no aggregation call is
made, and the error is surfaced in the output area with the
`Error calling LM Studio API:` prefix; when every chunk call succeeds, the
calls sent are exactly all chunk prompts followed by one final aggregation
prompt. -/
theorem pipeline_abort_and_final :
    ∀ (respond : Nat → Except String String) (u : String)
      (reviews : List (Option String)) (f : Nat → String) (j : Nat) (e : String),
      (j < (chunkSlices 20 reviews).length →
        (∀ i, i < j → respond i = Except.ok (f i)) →
        respond j = Except.error e →
        generate_insights respond u reviews =
          ⟨((chunkSlices 20 reviews).take (j + 1)).map (chunkPrompt u),
            "Error calling LM Studio API: " ++ e⟩) ∧
      ((∀ i, i < (chunkSlices 20 reviews).length → respond i = Except.ok (f i)) →
        (generate_insights respond u reviews).calls =
          (chunkSlices 20 reviews).map (chunkPrompt u) ++
            [finalPrompt ((List.range (chunkSlices 20 reviews).length).map f)]) := by
  intro respond u reviews f j e
  constructor
  · intro hj hok herr
    have hfail := processChunks_fail respond u f e (chunkSlices 20 reviews) 0 j hj
      (by intro i hi; simpa using hok i hi) (by simpa using herr)
    simp only [generate_insights, hfail]
  · intro hok
    have hall := processChunks_all_ok respond u f (chunkSlices 20 reviews) 0
      (by intro i hi; simpa using hok i hi)
    simp only [generate_insights, hall]
    have hlen : ((chunkSlices 20 reviews).map (chunkPrompt u)).length =
        (chunkSlices 20 reviews).length := List.length_map _ _
    cases hfi : respond ((chunkSlices 20 reviews).map (chunkPrompt u)).length <;>
      simp [hfi, hlen]

/-- Closed instances of the abort/success call pattern, on 45 reviews
(3 chunks): a failure on the second chunk call stops after two calls with the
error shown, and an all-success run makes the three chunk calls plus exactly
one final call. -/
theorem pipeline_abort_and_final_witness :
    generate_insights (fun k => if k == 1 then Except.error "boom" else Except.ok "rep")
        "P" (List.replicate 45 (Option.some "good app")) =
      ⟨((chunkSlices 20 (List.replicate 45 (Option.some "good app"))).take 2).map
          (chunkPrompt "P"),
        "Error calling LM Studio API: " ++ "boom"⟩ ∧
    (generate_insights (fun _ => Except.ok "rep") "P"
        (List.replicate 45 (Option.some "good app"))).calls =
      (chunkSlices 20 (List.replicate 45 (Option.some "good app"))).map (chunkPrompt "P") ++
        [finalPrompt ((List.range
          (chunkSlices 20 (List.replicate 45 (Option.some "good app"))).length).map
          (fun _ => "rep"))] :=
  ⟨(pipeline_abort_and_final
      (fun k => if k == 1 then Except.error "boom" else Except.ok "rep") "P"
      (List.replicate 45 (Option.some "good app")) (fun _ => "rep") 1 "boom").1
      (by decide) (by decide) (by decide),
    (pipeline_abort_and_final (fun _ => Except.ok "rep") "P"
      (List.replicate 45 (Option.some "good app")) (fun _ => "rep") 0 "unused").2
      (by intro i _; rfl)⟩

set_option maxRecDepth 8192 in
/-- C10: with an empty review column, zero chunk calls are made, exactly one
final aggregation call goes out, its prompt embeds the empty report list
(`Reports: []`), and its response is shown as the final report. -/
theorem empty_reviews_single_call :
    ∀ (respond : Nat → Except String String) (u : String) (r : String),
      respond 0 = Except.ok r →
      generate_insights respond u [] = ⟨[finalPrompt []], "Final Report:\n" ++ r⟩ ∧
      finalPrompt [] = "Combine the following UI/UX reports from Google Play Store review analysis into a single, concise list of actionable insights.  Prioritize the most important issues (maximum 5). Remove redundant information. I do NOT want code or rambling in the response.\n        Reports: []" := by
  intro respond u r h
  refine ⟨?_, rfl⟩
  have h1 : chunkSlices 20 ([] : List (Option String)) = [] := rfl
  have h2 : processChunks respond u [] 0 = ([], Except.ok []) := rfl
  simp only [generate_insights, h1, h2, List.length_nil, h]
  rfl

/-- Closed instance of the empty-input behavior. -/
theorem empty_reviews_single_call_witness :
    generate_insights (fun _ => Except.ok "done") "P" [] =
      ⟨[finalPrompt []], "Final Report:\n" ++ "done"⟩ :=
  (empty_reviews_single_call (fun _ => Except.ok "done") "P" "done" rfl).1

/-! ### LM Studio call lemmas -/

/-- C9 corrected, counterexample: a 200 response whose JSON object lacks a
`choices` array is not surfaced as an error — `call_lmstudio` returns the
placeholder text as an ordinary successful result, which the caller then
treats as a chunk report. -/
theorem lmstudio_malformed_cex :
    call_lmstudio ⟨200, Option.some (PyVal.pdict [])⟩ =
      Except.ok (PyVal.pstr "No content returned from model.") := rfl

/-- C9 amended: `call_lmstudio` surfaces an error exactly for 4xx/5xx statuses,
for a body that is not valid JSON, and for a first choice without a `text`
field; a response without a non-empty `choices` array yields the placeholder
string `"No content returned from model."` as normal content; a well-formed
response yields the first choice's `text` value. -/
theorem lmstudio_response_amended :
    (∀ (st : Nat) (body : Option PyVal), 400 ≤ st → st < 600 →
      call_lmstudio ⟨st, body⟩ =
        Except.error ("LM Studio API request failed: HTTP error " ++ natStr st)) ∧
    (∀ st : Nat, st < 400 →
      call_lmstudio ⟨st, Option.none⟩ =
        Except.error "LM Studio API request failed: response body is not valid JSON") ∧
    (∀ (st : Nat) (t : String) (restChoices : List PyVal) (kvs : List (String × PyVal)),
      st < 400 →
      call_lmstudio ⟨st, Option.some (PyVal.pdict [("choices",
          PyVal.plist (PyVal.pdict (("text", PyVal.pstr t) :: kvs) :: restChoices))])⟩ =
        Except.ok (PyVal.pstr t)) ∧
    (∀ st : Nat, st < 400 →
      call_lmstudio ⟨st, Option.some (PyVal.pdict [("choices",
          PyVal.plist [PyVal.pdict []])])⟩ =
        Except.error ("KeyError: " ++ "text")) ∧
    (∀ st : Nat, st < 400 →
      call_lmstudio ⟨st, Option.some (PyVal.pdict [])⟩ =
        Except.ok (PyVal.pstr "No content returned from model.")) := by
  have hcondT : ∀ st : Nat, 400 ≤ st → st < 600 →
      (decide (400 ≤ st) && decide (st < 600)) = true := by
    intro st h1 h2
    simp [h1, h2]
  have hcondF : ∀ st : Nat, st < 400 →
      (decide (400 ≤ st) && decide (st < 600)) = false := by
    intro st h1
    simp
    omega
  refine ⟨?_, ?_, ?_, ?_, ?_⟩
  · intro st body h1 h2
    simp only [call_lmstudio, hcondT st h1 h2, if_true]
  · intro st h1
    simp only [call_lmstudio, hcondF st h1, Bool.false_eq_true, if_false]
  · intro st t restChoices kvs h1
    simp only [call_lmstudio, hcondF st h1, Bool.false_eq_true, if_false]
    show (if 0 < restChoices.length + 1 then _ else _) = _
    rw [if_pos (Nat.succ_pos _)]
    simp [pyGetIdx, pyGetStr, List.find?]
  · intro st h1
    simp only [call_lmstudio, hcondF st h1, Bool.false_eq_true, if_false]
    rfl
  · intro st h1
    simp only [call_lmstudio, hcondF st h1, Bool.false_eq_true, if_false]
    rfl

/-- Closed instances of the amended response handling. -/
theorem lmstudio_response_amended_witness :
    call_lmstudio ⟨500, Option.some (PyVal.pdict [])⟩ =
      Except.error ("LM Studio API request failed: HTTP error " ++ natStr 500) ∧
    call_lmstudio ⟨200, Option.none⟩ =
      Except.error "LM Studio API request failed: response body is not valid JSON" ∧
    call_lmstudio ⟨200, Option.some (PyVal.pdict [("choices",
        PyVal.plist (PyVal.pdict [("text", PyVal.pstr "hi")] :: []))])⟩ =
      Except.ok (PyVal.pstr "hi") ∧
    call_lmstudio ⟨200, Option.some (PyVal.pdict [("choices",
        PyVal.plist [PyVal.pdict []])])⟩ = Except.error ("KeyError: " ++ "text") :=
  ⟨lmstudio_response_amended.1 500 (Option.some (PyVal.pdict [])) (by decide) (by decide),
    lmstudio_response_amended.2.1 200 (by decide),
    lmstudio_response_amended.2.2.1 200 "hi" [] [] (by decide),
    lmstudio_response_amended.2.2.2.1 200 (by decide)⟩
